import Mathlib

/-!
Verification of the `resize-image` batch JPEG resizer (`src/main.rs`).

The development shallowly embeds the program:

* the `f32` arithmetic of `resize`'s dimension computation is modelled exactly:
  `fl` below is IEEE round-to-nearest-even with a 24-bit significand and
  unbounded exponent, which coincides with IEEE binary32 on the whole range the
  program can reach (no value is subnormal and none overflows);
* the external image decoder (`image::open`) is modelled by an oracle field on
  each input; the external Lanczos3 resampler is a function parameter;
* `compress`'s scanline loop and the per-file pipeline `process` with its
  file-system effects are modelled step by step;
* the rayon batch loop is modelled as a per-path map, with an abnormal
  (panicking) task aborting the whole batch, as `rayon::par_iter::for_each`
  propagates panics.

The `Rat` arithmetic primitives are restored to their definitional
reducibility so that concrete rational computations can be settled by `decide`.
-/

attribute [local semireducible] Rat.mul Rat.inv Rat.add Rat.sub

namespace ResizeImage

/-! ### Exact model of f32 rounding -/

/-- Round a rational to the nearest integer, ties to even. -/
def rne (x : ℚ) : ℤ :=
  let f := ⌊x⌋
  if x - f < 1/2 then f
  else if 1/2 < x - f then f + 1
  else if Even f then f else f + 1

/-- For `1 ≤ q`: number of halvings until the value drops below 2
(the binary exponent), with explicit fuel. -/
def expUp : ℕ → ℚ → ℕ
  | 0, _ => 0
  | f + 1, q => if q < 2 then 0 else expUp f (q / 2) + 1

/-- For `0 < q < 2`: number of doublings until the value reaches 1
(the negated binary exponent), with explicit fuel. -/
def expDown : ℕ → ℚ → ℕ
  | 0, _ => 0
  | f + 1, q => if 1 ≤ q then 0 else expDown f (2 * q) + 1

/-- Fuel that always suffices for `expUp`/`expDown` on `q`. -/
def expFuel (q : ℚ) : ℕ := q.num.natAbs + q.den

/-- Binary exponent of a positive rational: `2 ^ qexp q ≤ q < 2 ^ (qexp q + 1)`. -/
def qexp (q : ℚ) : ℤ :=
  if 1 ≤ q then (expUp (expFuel q) q : ℤ) else -(expDown (expFuel q) q : ℤ)

/-- Exact value of rounding a rational to the nearest binary float with a
`p + 1`-bit significand (round to nearest, ties to even; unbounded exponent,
hence identical to the IEEE format wherever no overflow/underflow occurs —
true of every value the program computes).  `p = 23` is binary32 (`f32`),
`p = 52` is binary64 (`f64`).  Non-positive inputs never occur here and are
sent to 0. -/
def flp (p : ℕ) (q : ℚ) : ℚ :=
  if q ≤ 0 then 0
  else (rne (q * 2 ^ ((p : ℤ) - qexp q)) : ℚ) * 2 ^ (qexp q - (p : ℤ))

/-- The `f32` arithmetic of `resize`'s dimension computation. -/
def fl : ℚ → ℚ := flp 23

/-- The `f64` arithmetic of the image crate's `resize_dimensions`. -/
def fl64 : ℚ → ℚ := flp 52

theorem rne_le (x : ℚ) : (rne x : ℚ) ≤ x + 1/2 := by
  have h1 := Int.floor_le x
  have h2 := Int.lt_floor_add_one x
  simp only [rne]
  split_ifs with hA hB hC <;> push_cast <;> linarith

theorem le_rne (x : ℚ) : x - 1/2 ≤ (rne x : ℚ) := by
  have h1 := Int.floor_le x
  have h2 := Int.lt_floor_add_one x
  simp only [rne]
  split_ifs with hA hB hC <;> push_cast <;> linarith

theorem rne_mono {x y : ℚ} (h : x ≤ y) : rne x ≤ rne y := by
  by_contra hc
  push_neg at hc
  have h1 : (rne y : ℚ) + 1 ≤ (rne x : ℚ) := by exact_mod_cast hc
  have h2 := rne_le x
  have h3 := le_rne y
  have hyx : y ≤ x := by linarith
  have hxy : x = y := le_antisymm h hyx
  subst hxy
  exact absurd rfl (Int.lt_iff_le_and_ne.mp hc).2.symm

theorem expUp_spec : ∀ (f : ℕ) (q : ℚ), 1 ≤ q → q < 2 ^ f →
    (2:ℚ) ^ expUp f q ≤ q ∧ q < 2 ^ (expUp f q + 1) := by
  intro f
  induction f with
  | zero =>
    intro q h1 h2
    rw [pow_zero] at h2
    exact absurd (lt_of_le_of_lt h1 h2) (lt_irrefl 1)
  | succ f ih =>
    intro q h1 h2
    simp only [expUp]
    split_ifs with hq
    · constructor
      · simpa using h1
      · simpa using hq
    · push_neg at hq
      have h1' : (1:ℚ) ≤ q / 2 := by linarith
      have h2' : q / 2 < 2 ^ f := by
        rw [div_lt_iff₀ (by norm_num : (0:ℚ) < 2)]
        calc q < 2 ^ (f + 1) := h2
          _ = 2 ^ f * 2 := by ring
      obtain ⟨a, b⟩ := ih (q / 2) h1' h2'
      constructor
      · rw [pow_succ]
        linarith
      · rw [pow_succ]
        linarith

theorem expDown_spec : ∀ (f : ℕ) (q : ℚ), 0 < q → q < 2 → 1 ≤ q * 2 ^ f →
    1 ≤ q * 2 ^ expDown f q ∧ q * 2 ^ expDown f q < 2 := by
  intro f
  induction f with
  | zero =>
    intro q h0 h2 hf
    rw [pow_zero] at hf
    simp only [expDown, pow_zero]
    exact ⟨hf, by linarith⟩
  | succ f ih =>
    intro q h0 h2 hf
    simp only [expDown]
    split_ifs with hq
    · rw [pow_zero]
      exact ⟨by linarith, by linarith⟩
    · push_neg at hq
      have h0' : (0:ℚ) < 2 * q := by linarith
      have h2' : 2 * q < 2 := by linarith
      have hf' : 1 ≤ 2 * q * 2 ^ f := by
        calc (1:ℚ) ≤ q * 2 ^ (f + 1) := hf
          _ = 2 * q * 2 ^ f := by ring
      obtain ⟨a, b⟩ := ih (2 * q) h0' h2' hf'
      constructor
      · calc (1:ℚ) ≤ 2 * q * 2 ^ expDown f (2 * q) := a
          _ = q * 2 ^ (expDown f (2 * q) + 1) := by ring
      · calc q * 2 ^ (expDown f (2 * q) + 1) = 2 * q * 2 ^ expDown f (2 * q) := by ring
          _ < 2 := b

theorem rat_le_num_natAbs {q : ℚ} (hq : 0 < q) : q ≤ (q.num.natAbs : ℚ) := by
  have hnum : 0 < q.num := Rat.num_pos.mpr hq
  have habs : ((q.num.natAbs : ℤ) : ℚ) = (q.num : ℚ) := by
    rw [Int.natAbs_of_nonneg (le_of_lt hnum)]
  have hden : (1:ℚ) ≤ (q.den : ℚ) := by
    exact_mod_cast Nat.one_le_iff_ne_zero.mpr q.den_nz
  have h := Rat.num_div_den q
  calc q = (q.num : ℚ) / q.den := h.symm
    _ ≤ (q.num : ℚ) := div_le_self (by exact_mod_cast le_of_lt hnum) hden
    _ = ((q.num.natAbs : ℤ) : ℚ) := habs.symm
    _ = (q.num.natAbs : ℚ) := Int.cast_natCast _

theorem one_div_den_le {q : ℚ} (hq : 0 < q) : (1:ℚ) / (q.den : ℚ) ≤ q := by
  have hnum1 : (1:ℚ) ≤ (q.num : ℚ) := by exact_mod_cast Rat.num_pos.mpr hq
  have hden : (0:ℚ) < (q.den : ℚ) := by exact_mod_cast q.den_pos
  rw [div_le_iff₀ hden]
  have hqd : q * (q.den : ℚ) = (q.num : ℚ) := by
    nth_rewrite 1 [← Rat.num_div_den q]
    exact div_mul_cancel₀ _ (ne_of_gt hden)
  rw [hqd]
  exact hnum1

theorem qexp_spec (q : ℚ) (hq : 0 < q) :
    (2:ℚ) ^ qexp q ≤ q ∧ q < 2 ^ (qexp q + 1) := by
  unfold qexp
  split_ifs with h1
  · -- 1 ≤ q
    have hq_le : q ≤ (q.num.natAbs : ℚ) := rat_le_num_natAbs hq
    have hlt : (q.num.natAbs : ℚ) < 2 ^ q.num.natAbs := by
      have := Nat.lt_two_pow q.num.natAbs
      exact_mod_cast this
    have hfuel : q < 2 ^ expFuel q := by
      have hmono : (2:ℚ) ^ q.num.natAbs ≤ 2 ^ expFuel q :=
        pow_le_pow_right₀ (by norm_num) (Nat.le_add_right _ _)
      linarith
    obtain ⟨a, b⟩ := expUp_spec (expFuel q) q h1 hfuel
    constructor
    · rw [zpow_natCast]; exact a
    · have : ((expUp (expFuel q) q : ℤ) + 1) = ((expUp (expFuel q) q + 1 : ℕ) : ℤ) := by
        push_cast; ring
      rw [this, zpow_natCast]; exact b
  · -- q < 1
    push_neg at h1
    have h2 : q < 2 := by linarith
    have hden_le : (q.den : ℚ) ≤ 2 ^ q.den := by
      have := Nat.lt_two_pow q.den
      exact_mod_cast le_of_lt this
    have hdpos : (0:ℚ) < (q.den : ℚ) := by exact_mod_cast q.den_pos
    have hfuel : 1 ≤ q * 2 ^ expFuel q := by
      have hstep : (1:ℚ) ≤ q * 2 ^ q.den := by
        have hd := one_div_den_le hq
        have : (1:ℚ) / (q.den : ℚ) * 2 ^ q.den ≤ q * 2 ^ q.den :=
          mul_le_mul_of_nonneg_right hd (by positivity)
        have hge : (1:ℚ) ≤ (1:ℚ) / (q.den : ℚ) * 2 ^ q.den := by
          rw [div_mul_eq_mul_div, one_mul, le_div_iff₀ hdpos, one_mul]
          exact hden_le
        linarith
      have hmono : (2:ℚ) ^ q.den ≤ 2 ^ expFuel q :=
        pow_le_pow_right₀ (by norm_num) (Nat.le_add_left _ _)
      have := mul_le_mul_of_nonneg_left hmono (le_of_lt hq)
      linarith
    obtain ⟨a, b⟩ := expDown_spec (expFuel q) q hq h2 hfuel
    have hpowpos : (0:ℚ) < 2 ^ expDown (expFuel q) q := by positivity
    constructor
    · rw [zpow_neg, zpow_natCast, inv_le_iff_one_le_mul₀ hpowpos]
      linarith [a]
    · have hrw : (2:ℚ) ^ (-(expDown (expFuel q) q : ℤ) + 1) =
          2 / 2 ^ expDown (expFuel q) q := by
        rw [zpow_add₀ (two_ne_zero), zpow_neg, zpow_natCast, zpow_one]
        field_simp
      rw [hrw, lt_div_iff₀ hpowpos]
      exact b

theorem qexp_unique (q : ℚ) (e : ℤ) (h1 : (2:ℚ) ^ e ≤ q) (h2 : q < 2 ^ (e + 1)) :
    qexp q = e := by
  have hq : 0 < q := lt_of_lt_of_le (zpow_pos (by norm_num) e) h1
  obtain ⟨a, b⟩ := qexp_spec q hq
  by_contra hne
  rcases lt_or_gt_of_ne hne with hlt | hgt
  · have : (2:ℚ) ^ (qexp q + 1) ≤ 2 ^ e :=
      zpow_le_zpow_right₀ (by norm_num) (by omega)
    linarith
  · have : (2:ℚ) ^ (e + 1) ≤ 2 ^ qexp q :=
      zpow_le_zpow_right₀ (by norm_num) (by omega)
    linarith

theorem qexp_mono {x y : ℚ} (hx : 0 < x) (h : x ≤ y) : qexp x ≤ qexp y := by
  have hy : 0 < y := lt_of_lt_of_le hx h
  obtain ⟨a1, b1⟩ := qexp_spec x hx
  obtain ⟨a2, b2⟩ := qexp_spec y hy
  by_contra hc
  push_neg at hc
  have : (2:ℚ) ^ (qexp y + 1) ≤ 2 ^ qexp x :=
    zpow_le_zpow_right₀ (by norm_num) (by omega)
  linarith

theorem flp_of_nonpos {p : ℕ} {q : ℚ} (hq : q ≤ 0) : flp p q = 0 := by
  simp [flp, hq]

theorem flp_le (p : ℕ) {q : ℚ} (hq : 0 < q) : flp p q ≤ q + q / 2 ^ (p + 1) := by
  obtain ⟨a, b⟩ := qexp_spec q hq
  have hnot : ¬ q ≤ 0 := not_le.mpr hq
  rw [flp, if_neg hnot]
  have hr := rne_le (q * 2 ^ ((p : ℤ) - qexp q))
  have hpos : (0:ℚ) < 2 ^ (qexp q - (p : ℤ)) := zpow_pos (by norm_num) _
  have hmul : (2:ℚ) ^ ((p : ℤ) - qexp q) * 2 ^ (qexp q - (p : ℤ)) = 1 := by
    rw [← zpow_add₀ (two_ne_zero : (2:ℚ) ≠ 0)]
    have he : (p : ℤ) - qexp q + (qexp q - (p : ℤ)) = 0 := by ring
    rw [he, zpow_zero]
  have step : (rne (q * 2 ^ ((p : ℤ) - qexp q)) : ℚ) * 2 ^ (qexp q - (p : ℤ)) ≤
      q + 2 ^ (qexp q - (p : ℤ)) / 2 := by
    have hm := mul_le_mul_of_nonneg_right hr (le_of_lt hpos)
    calc (rne (q * 2 ^ ((p : ℤ) - qexp q)) : ℚ) * 2 ^ (qexp q - (p : ℤ))
        ≤ (q * 2 ^ ((p : ℤ) - qexp q) + 1/2) * 2 ^ (qexp q - (p : ℤ)) := hm
      _ = q * (2 ^ ((p : ℤ) - qexp q) * 2 ^ (qexp q - (p : ℤ))) +
            2 ^ (qexp q - (p : ℤ)) / 2 := by ring
      _ = q + 2 ^ (qexp q - (p : ℤ)) / 2 := by rw [hmul, mul_one]
  have hbound : (2:ℚ) ^ (qexp q - (p : ℤ)) / 2 ≤ q / 2 ^ (p + 1) := by
    have h1 : (2:ℚ) ^ (qexp q - (p : ℤ)) / 2 = 2 ^ qexp q * ((2:ℚ) ^ (p + 1))⁻¹ := by
      rw [← zpow_natCast (2:ℚ) (p + 1), ← zpow_neg, ← zpow_add₀ (two_ne_zero : (2:ℚ) ≠ 0)]
      rw [div_eq_mul_inv, ← zpow_neg_one, ← zpow_add₀ (two_ne_zero : (2:ℚ) ≠ 0)]
      congr 1
      push_cast
      ring
    rw [h1, div_eq_mul_inv]
    exact mul_le_mul_of_nonneg_right a (by positivity)
  linarith

theorem le_flp (p : ℕ) {q : ℚ} (hq : 0 < q) : q - q / 2 ^ (p + 1) ≤ flp p q := by
  obtain ⟨a, b⟩ := qexp_spec q hq
  have hnot : ¬ q ≤ 0 := not_le.mpr hq
  rw [flp, if_neg hnot]
  have hr := le_rne (q * 2 ^ ((p : ℤ) - qexp q))
  have hpos : (0:ℚ) < 2 ^ (qexp q - (p : ℤ)) := zpow_pos (by norm_num) _
  have hmul : (2:ℚ) ^ ((p : ℤ) - qexp q) * 2 ^ (qexp q - (p : ℤ)) = 1 := by
    rw [← zpow_add₀ (two_ne_zero : (2:ℚ) ≠ 0)]
    have he : (p : ℤ) - qexp q + (qexp q - (p : ℤ)) = 0 := by ring
    rw [he, zpow_zero]
  have step : q - 2 ^ (qexp q - (p : ℤ)) / 2 ≤
      (rne (q * 2 ^ ((p : ℤ) - qexp q)) : ℚ) * 2 ^ (qexp q - (p : ℤ)) := by
    have hm := mul_le_mul_of_nonneg_right hr (le_of_lt hpos)
    calc q - 2 ^ (qexp q - (p : ℤ)) / 2
        = q * (2 ^ ((p : ℤ) - qexp q) * 2 ^ (qexp q - (p : ℤ))) -
            2 ^ (qexp q - (p : ℤ)) / 2 := by
          rw [hmul, mul_one]
      _ = (q * 2 ^ ((p : ℤ) - qexp q) - 1/2) * 2 ^ (qexp q - (p : ℤ)) := by ring
      _ ≤ (rne (q * 2 ^ ((p : ℤ) - qexp q)) : ℚ) * 2 ^ (qexp q - (p : ℤ)) := hm
  have hbound : (2:ℚ) ^ (qexp q - (p : ℤ)) / 2 ≤ q / 2 ^ (p + 1) := by
    have h1 : (2:ℚ) ^ (qexp q - (p : ℤ)) / 2 = 2 ^ qexp q * ((2:ℚ) ^ (p + 1))⁻¹ := by
      rw [← zpow_natCast (2:ℚ) (p + 1), ← zpow_neg, ← zpow_add₀ (two_ne_zero : (2:ℚ) ≠ 0)]
      rw [div_eq_mul_inv, ← zpow_neg_one, ← zpow_add₀ (two_ne_zero : (2:ℚ) ≠ 0)]
      congr 1
      push_cast
      ring
    rw [h1, div_eq_mul_inv]
    exact mul_le_mul_of_nonneg_right a (by positivity)
  linarith

theorem flp_pos (p : ℕ) {q : ℚ} (hq : 0 < q) : 0 < flp p q := by
  have h := le_flp p hq
  have he : q - q / 2 ^ (p + 1) = q * (1 - 1 / 2 ^ (p + 1)) := by ring
  have h3 : (1:ℚ) < 2 ^ (p + 1) := by
    calc (1:ℚ) < 2 ^ 1 := by norm_num
      _ ≤ 2 ^ (p + 1) := pow_le_pow_right₀ (by norm_num) (by omega)
  have h4 : (1:ℚ) / 2 ^ (p + 1) < 1 := (div_lt_one (by positivity)).mpr h3
  have h5 : 0 < q * (1 - 1 / 2 ^ (p + 1)) := mul_pos hq (by linarith)
  linarith

theorem flp_nonneg (p : ℕ) (q : ℚ) : 0 ≤ flp p q := by
  by_cases hq : q ≤ 0
  · rw [flp_of_nonpos hq]
  · exact le_of_lt (flp_pos p (not_le.mp hq))

theorem flp_mono (p : ℕ) {x y : ℚ} (h : x ≤ y) : flp p x ≤ flp p y := by
  by_cases hx : x ≤ 0
  · rw [flp_of_nonpos hx]; exact flp_nonneg p y
  · push_neg at hx
    have hy : 0 < y := lt_of_lt_of_le hx h
    have hnx : ¬ x ≤ 0 := not_le.mpr hx
    have hny : ¬ y ≤ 0 := not_le.mpr hy
    obtain ⟨ax, bx⟩ := qexp_spec x hx
    obtain ⟨ay, by'⟩ := qexp_spec y hy
    have hee : qexp x ≤ qexp y := qexp_mono hx h
    rcases eq_or_lt_of_le hee with heq | hlt
    · rw [flp, if_neg hnx, flp, if_neg hny, ← heq]
      have hm : x * 2 ^ ((p : ℤ) - qexp x) ≤ y * 2 ^ ((p : ℤ) - qexp x) :=
        mul_le_mul_of_nonneg_right h (le_of_lt (zpow_pos (by norm_num) _))
      have hrm := rne_mono hm
      exact mul_le_mul_of_nonneg_right (by exact_mod_cast hrm)
        (le_of_lt (zpow_pos (by norm_num) _))
    · -- qexp x < qexp y : flp p x ≤ 2 ^ (qexp x + 1) ≤ 2 ^ qexp y ≤ flp p y
      have hfx : flp p x ≤ 2 ^ (qexp x + 1) := by
        rw [flp, if_neg hnx]
        have hub : x * 2 ^ ((p : ℤ) - qexp x) < 2 ^ (p + 1) := by
          have hp : (0:ℚ) < 2 ^ ((p : ℤ) - qexp x) := zpow_pos (by norm_num) _
          calc x * 2 ^ ((p : ℤ) - qexp x) < 2 ^ (qexp x + 1) * 2 ^ ((p : ℤ) - qexp x) :=
                mul_lt_mul_of_pos_right bx hp
            _ = 2 ^ (p + 1) := by
                rw [← zpow_add₀ (two_ne_zero : (2:ℚ) ≠ 0), ← zpow_natCast (2:ℚ) (p + 1)]
                congr 1
                push_cast
                ring
        have hr : (rne (x * 2 ^ ((p : ℤ) - qexp x)) : ℚ) ≤ 2 ^ (p + 1) := by
          have h1 := rne_le (x * 2 ^ ((p : ℤ) - qexp x))
          have h2 : (rne (x * 2 ^ ((p : ℤ) - qexp x)) : ℚ) < 2 ^ (p + 1) + 1 := by linarith
          have h3 : rne (x * 2 ^ ((p : ℤ) - qexp x)) < (2 ^ (p + 1) : ℤ) + 1 := by
            exact_mod_cast h2
          have h4 : rne (x * 2 ^ ((p : ℤ) - qexp x)) ≤ (2 ^ (p + 1) : ℤ) := by
            have h5 := Int.lt_iff_add_one_le.mp h3
            linarith
          exact_mod_cast h4
        have hp : (0:ℚ) < 2 ^ (qexp x - (p : ℤ)) := zpow_pos (by norm_num) _
        calc (rne (x * 2 ^ ((p : ℤ) - qexp x)) : ℚ) * 2 ^ (qexp x - (p : ℤ))
            ≤ 2 ^ (p + 1) * 2 ^ (qexp x - (p : ℤ)) :=
              mul_le_mul_of_nonneg_right hr (le_of_lt hp)
          _ = 2 ^ (qexp x + 1) := by
              rw [← zpow_natCast (2:ℚ) (p + 1), ← zpow_add₀ (two_ne_zero : (2:ℚ) ≠ 0)]
              congr 1
              push_cast
              ring
      have hfy : (2:ℚ) ^ qexp y ≤ flp p y := by
        rw [flp, if_neg hny]
        have hlb : (2:ℚ) ^ p ≤ y * 2 ^ ((p : ℤ) - qexp y) := by
          have hp : (0:ℚ) < 2 ^ ((p : ℤ) - qexp y) := zpow_pos (by norm_num) _
          calc (2:ℚ) ^ p = 2 ^ qexp y * 2 ^ ((p : ℤ) - qexp y) := by
                rw [← zpow_add₀ (two_ne_zero : (2:ℚ) ≠ 0), ← zpow_natCast (2:ℚ) p]
                congr 1
                ring
            _ ≤ y * 2 ^ ((p : ℤ) - qexp y) := mul_le_mul_of_nonneg_right ay (le_of_lt hp)
        have hr : (2 ^ p : ℤ) ≤ rne (y * 2 ^ ((p : ℤ) - qexp y)) := by
          have h1 := le_rne (y * 2 ^ ((p : ℤ) - qexp y))
          have h2 : (2:ℚ) ^ p - 1 < (rne (y * 2 ^ ((p : ℤ) - qexp y)) : ℚ) := by linarith
          have h3 : (2 ^ p : ℤ) - 1 < rne (y * 2 ^ ((p : ℤ) - qexp y)) := by exact_mod_cast h2
          have h5 := Int.lt_iff_add_one_le.mp h3
          linarith
        have hp : (0:ℚ) < 2 ^ (qexp y - (p : ℤ)) := zpow_pos (by norm_num) _
        calc (2:ℚ) ^ qexp y = 2 ^ p * 2 ^ (qexp y - (p : ℤ)) := by
              rw [← zpow_natCast (2:ℚ) p, ← zpow_add₀ (two_ne_zero : (2:ℚ) ≠ 0)]
              congr 1
              ring
          _ ≤ (rne (y * 2 ^ ((p : ℤ) - qexp y)) : ℚ) * 2 ^ (qexp y - (p : ℤ)) := by
              refine mul_le_mul_of_nonneg_right ?_ (le_of_lt hp)
              exact_mod_cast hr
      have hmid : (2:ℚ) ^ (qexp x + 1) ≤ 2 ^ qexp y :=
        zpow_le_zpow_right₀ (by norm_num) (by omega)
      linarith

/-! The f32 specialisations used by the dimension computation (`p = 23`,
relative error `2 ^ 24`-th), and the f64 specialisations used by the image
crate's `resize_dimensions` (`p = 52`, relative error `2 ^ 53`-th). -/

theorem fl_of_nonpos {q : ℚ} (hq : q ≤ 0) : fl q = 0 := flp_of_nonpos hq

theorem fl_le {q : ℚ} (hq : 0 < q) : fl q ≤ q + q / 2 ^ 24 := flp_le 23 hq

theorem le_fl {q : ℚ} (hq : 0 < q) : q - q / 2 ^ 24 ≤ fl q := le_flp 23 hq

theorem fl_pos {q : ℚ} (hq : 0 < q) : 0 < fl q := flp_pos 23 hq

theorem fl_nonneg (q : ℚ) : 0 ≤ fl q := flp_nonneg 23 q

theorem fl_mono {x y : ℚ} (h : x ≤ y) : fl x ≤ fl y := flp_mono 23 h

theorem fl64_of_nonpos {q : ℚ} (hq : q ≤ 0) : fl64 q = 0 := flp_of_nonpos hq

theorem fl64_le {q : ℚ} (hq : 0 < q) : fl64 q ≤ q + q / 2 ^ 53 := flp_le 52 hq

theorem fl64_nonneg (q : ℚ) : 0 ≤ fl64 q := flp_nonneg 52 q

theorem fl64_le_of_nonneg {q : ℚ} (hq : 0 ≤ q) : fl64 q ≤ q + q / 2 ^ 53 := by
  rcases eq_or_lt_of_le hq with heq | hpos
  · rw [← heq, fl64_of_nonpos le_rfl]
    norm_num
  · exact fl64_le hpos

end ResizeImage

namespace ResizeImage

/-! ### The dimension computation of `resize` (src/main.rs, lines 59-85) -/

/-- `TARGET_SIZE` (line 11). -/
def TARGET_SIZE : ℕ := 1280

/-- The scaled smaller dimension
`(smaller as f32 * (TARGET_SIZE as f32 / larger as f32)) as usize`
(lines 66-70): every operation is f32 arithmetic, the final cast truncates
toward zero. -/
def scaled (larger smaller : ℕ) : ℕ :=
  (⌊fl (fl (smaller : ℚ) * fl (fl (TARGET_SIZE : ℚ) / fl (larger : ℚ)))⌋).toNat

/-- Target dimensions computed by `resize` when the bound is exceeded
(lines 65-71): the `width > height` branch pins the width to the bound,
the other branch pins the height. -/
def targetDims (width height : ℕ) : ℕ × ℕ :=
  if height < width then (TARGET_SIZE, scaled width height)
  else (scaled height width, TARGET_SIZE)

/-- `f.round() as u64` in the image crate's dimension fit: rounding half away
from zero, which on the nonnegative values arising there is `⌊x + 1/2⌋`. -/
def roundAway (x : ℚ) : ℤ := ⌊x + 1/2⌋

/-- One output dimension of the image crate's fit:
`max((dim as f64 * ratio).round() as u64, 1)`. -/
def fitDim (d : ℕ) (ratio : ℚ) : ℕ := max (roundAway (fl64 ((d : ℚ) * ratio))).toNat 1

/-- The scaling ratio chosen by the image crate's fit: the smaller of the two
f64 ratios `nwidth as f64 / width as f64` and `nheight as f64 / height as f64`,
so the scaled image preserves the source aspect ratio and fits within the
requested box. -/
def fitRatio (width height nwidth nheight : ℕ) : ℚ :=
  min (fl64 ((nwidth : ℚ) / (width : ℚ))) (fl64 ((nheight : ℚ) / (height : ℚ)))

/-- `resize_dimensions(width, height, nwidth, nheight, fill := false)` of the
image crate, the routine `DynamicImage::resize` uses to turn the requested
bounding box into the dimensions of the image it actually returns: both source
dimensions are scaled by `fitRatio` (so the output generally does NOT equal the
requested box — it is refit through f64 arithmetic), each rounded and clamped
to at least 1; a fit overflowing `u32::MAX = 4294967295` is clamped and the
other side rescaled (unreachable for the boxes this program requests).
Modelled from the image crate, an external collaborator whose behaviour
determines the `resized_img.width()/height()` the program reads back; the
crate's f64 arithmetic on a zero source dimension involves NaN, which this
rational model does not represent, but decoded images always have positive
dimensions. -/
def resize_dimensions (width height nwidth nheight : ℕ) : ℕ × ℕ :=
  if 4294967295 < fitDim width (fitRatio width height nwidth nheight) then
    (4294967295, fitDim height (fl64 ((4294967295 : ℚ) / (width : ℚ))))
  else if 4294967295 < fitDim height (fitRatio width height nwidth nheight) then
    (fitDim width (fl64 ((4294967295 : ℚ) / (height : ℚ))), 4294967295)
  else
    (fitDim width (fitRatio width height nwidth nheight),
     fitDim height (fitRatio width height nwidth nheight))

/-- Dimensions of the image returned by `resize` (lines 64-84).  When the bound
is exceeded the image is produced by the external `DynamicImage::resize`, whose
dimensions are `resize_dimensions` applied to the requested box `targetDims`;
otherwise the image passes through unchanged. -/
def resizeDims (width height : ℕ) : ℕ × ℕ :=
  if TARGET_SIZE < width ∨ TARGET_SIZE < height then
    resize_dimensions width height (targetDims width height).1 (targetDims width height).2
  else (width, height)

theorem fl_target : fl (TARGET_SIZE : ℚ) = 1280 := by decide

theorem fl_zero : fl 0 = 0 := fl_of_nonpos le_rfl

/-- The truncated scaled dimension never exceeds the bound. -/
theorem scaled_le_target {larger smaller : ℕ} (h : smaller ≤ larger)
    (hl : 0 < larger) : scaled larger smaller ≤ TARGET_SIZE := by
  unfold scaled
  rw [fl_target]
  have hLpos : 0 < fl (larger : ℚ) := fl_pos (by exact_mod_cast hl)
  set L := fl (larger : ℚ) with hLdef
  set R := fl (1280 / L) with hRdef
  set S := fl (smaller : ℚ) with hSdef
  have hRnonneg : 0 ≤ R := fl_nonneg _
  have hSnonneg : 0 ≤ S := fl_nonneg _
  have hSL : S ≤ L := fl_mono (by exact_mod_cast h)
  have hQpos : 0 < 1280 / L := by positivity
  have hR_le : R ≤ 1280 / L + (1280 / L) / 2 ^ 24 := fl_le hQpos
  have hSR : S * R ≤ 1280 + 1280 / 2 ^ 24 := by
    calc S * R ≤ L * R := mul_le_mul_of_nonneg_right hSL hRnonneg
      _ ≤ L * (1280 / L + (1280 / L) / 2 ^ 24) :=
          mul_le_mul_of_nonneg_left hR_le (le_of_lt hLpos)
      _ = 1280 + 1280 / 2 ^ 24 := by
          field_simp
          ring
  have hSRnonneg : 0 ≤ S * R := mul_nonneg hSnonneg hRnonneg
  have hP : fl (S * R) < 1281 := by
    rcases eq_or_lt_of_le hSRnonneg with heq | hpos
    · rw [← heq, fl_zero]
      norm_num
    · have h1 := fl_le hpos
      nlinarith
  have hfloor : ⌊fl (S * R)⌋ ≤ 1280 := by
    have h1 : (⌊fl (S * R)⌋ : ℚ) ≤ fl (S * R) := Int.floor_le _
    have h2 : (⌊fl (S * R)⌋ : ℚ) < 1281 := lt_of_le_of_lt h1 hP
    have h3 : ⌊fl (S * R)⌋ < 1281 := by exact_mod_cast h2
    omega
  show (⌊fl (S * R)⌋).toNat ≤ TARGET_SIZE
  unfold TARGET_SIZE
  omega

/-- The truncated f32 computation of the scaled dimension is within one of the
exact rational floor `⌊TARGET_SIZE * smaller / larger⌋`. -/
theorem scaled_within_one {larger smaller : ℕ} (h : smaller ≤ larger)
    (hl : 0 < larger) :
    ((scaled larger smaller : ℤ) - ((TARGET_SIZE * smaller / larger : ℕ) : ℤ)).natAbs ≤ 1 := by
  rcases Nat.eq_zero_or_pos smaller with hs0 | hspos
  · subst hs0
    have hz : scaled larger 0 = 0 := by
      unfold scaled
      rw [fl_target]
      have h0 : fl ((0:ℕ):ℚ) = 0 := by
        rw [Nat.cast_zero, fl_zero]
      rw [h0, zero_mul, fl_zero]
      simp
    rw [hz]
    simp
  · unfold scaled
    rw [fl_target]
    set a : ℚ := (smaller : ℚ) with hadef
    set l : ℚ := (larger : ℚ) with hldef
    have hapos : 0 < a := by rw [hadef]; exact_mod_cast hspos
    have hlpos : 0 < l := by rw [hldef]; exact_mod_cast hl
    have hal : a ≤ l := by rw [hadef, hldef]; exact_mod_cast h
    have hSpos : 0 < fl a := fl_pos hapos
    have hLpos : 0 < fl l := fl_pos hlpos
    set S := fl a with hSdef
    set L := fl l with hLdef
    have hQpos : (0:ℚ) < 1280 / L := by positivity
    have hRpos : 0 < fl (1280 / L) := fl_pos hQpos
    set R := fl (1280 / L) with hRdef
    have hSRpos : 0 < S * R := mul_pos hSpos hRpos
    have hPnonneg : 0 ≤ fl (S * R) := fl_nonneg _
    set P := fl (S * R) with hPdef
    have B1 : S * 2 ^ 24 ≤ a * (2 ^ 24 + 1) := by
      have := fl_le hapos
      linarith
    have B2 : a * (2 ^ 24 - 1) ≤ S * 2 ^ 24 := by
      have := le_fl hapos
      linarith
    have B3 : L * 2 ^ 24 ≤ l * (2 ^ 24 + 1) := by
      have := fl_le hlpos
      linarith
    have B4 : l * (2 ^ 24 - 1) ≤ L * 2 ^ 24 := by
      have := le_fl hlpos
      linarith
    have hLne : L ≠ 0 := ne_of_gt hLpos
    have B5 : R * L * 2 ^ 24 ≤ 1280 * (2 ^ 24 + 1) := by
      have h1 := fl_le hQpos
      have h2 : R * L ≤ (1280 / L + (1280 / L) / 2 ^ 24) * L :=
        mul_le_mul_of_nonneg_right h1 (le_of_lt hLpos)
      have h3 : (1280 / L + (1280 / L) / 2 ^ 24) * L = 1280 + 1280 / 2 ^ 24 := by
        field_simp
        ring
      have h4 : R * L ≤ 1280 + 1280 / 2 ^ 24 := le_trans h2 (le_of_eq h3)
      linarith
    have B6 : 1280 * (2 ^ 24 - 1) ≤ R * L * 2 ^ 24 := by
      have h1 := le_fl hQpos
      have h2 : (1280 / L - (1280 / L) / 2 ^ 24) * L ≤ R * L :=
        mul_le_mul_of_nonneg_right h1 (le_of_lt hLpos)
      have h3 : (1280 / L - (1280 / L) / 2 ^ 24) * L = 1280 - 1280 / 2 ^ 24 := by
        field_simp
        ring
      have h4 : (1280:ℚ) - 1280 / 2 ^ 24 ≤ R * L := le_trans (le_of_eq h3.symm) h2
      linarith
    have B7 : P * 2 ^ 24 ≤ S * R * (2 ^ 24 + 1) := by
      have := fl_le hSRpos
      linarith
    have B8 : S * R * (2 ^ 24 - 1) ≤ P * 2 ^ 24 := by
      have := le_fl hSRpos
      linarith
    have hup : P * l * ((2 ^ 24 - 1) * 2 ^ 48) ≤ 1280 * a * (2 ^ 24 + 1) ^ 3 := by
      have s6 : (l * (2 ^ 24 - 1)) * (P * 2 ^ 48) ≤ (L * 2 ^ 24) * (P * 2 ^ 48) :=
        mul_le_mul_of_nonneg_right B4 (mul_nonneg hPnonneg (by norm_num))
      have s1 : P * 2 ^ 24 * (L * 2 ^ 48) ≤ S * R * (2 ^ 24 + 1) * (L * 2 ^ 48) :=
        mul_le_mul_of_nonneg_right B7 (mul_nonneg (le_of_lt hLpos) (by norm_num))
      have s3 : (R * L * 2 ^ 24) * (S * (2 ^ 24 + 1) * 2 ^ 24) ≤
          (1280 * (2 ^ 24 + 1)) * (S * (2 ^ 24 + 1) * 2 ^ 24) :=
        mul_le_mul_of_nonneg_right B5
          (mul_nonneg (mul_nonneg (le_of_lt hSpos) (by norm_num)) (by norm_num))
      have s5 : (S * 2 ^ 24) * (1280 * (2 ^ 24 + 1) ^ 2) ≤
          (a * (2 ^ 24 + 1)) * (1280 * (2 ^ 24 + 1) ^ 2) :=
        mul_le_mul_of_nonneg_right B1 (by norm_num)
      calc P * l * ((2 ^ 24 - 1) * 2 ^ 48)
          = (l * (2 ^ 24 - 1)) * (P * 2 ^ 48) := by ring
        _ ≤ (L * 2 ^ 24) * (P * 2 ^ 48) := s6
        _ = P * 2 ^ 24 * (L * 2 ^ 48) := by ring
        _ ≤ S * R * (2 ^ 24 + 1) * (L * 2 ^ 48) := s1
        _ = (R * L * 2 ^ 24) * (S * (2 ^ 24 + 1) * 2 ^ 24) := by ring
        _ ≤ (1280 * (2 ^ 24 + 1)) * (S * (2 ^ 24 + 1) * 2 ^ 24) := s3
        _ = (S * 2 ^ 24) * (1280 * (2 ^ 24 + 1) ^ 2) := by ring
        _ ≤ (a * (2 ^ 24 + 1)) * (1280 * (2 ^ 24 + 1) ^ 2) := s5
        _ = 1280 * a * (2 ^ 24 + 1) ^ 3 := by ring
    have hkey : 1280 * a * (2 ^ 24 + 1) ^ 3 ≤ (1280 * a + l) * ((2 ^ 24 - 1) * 2 ^ 48) := by
      have hnum : (1280:ℚ) * ((2 ^ 24 + 1) ^ 3 - (2 ^ 24 - 1) * 2 ^ 48) ≤
          (2 ^ 24 - 1) * 2 ^ 48 := by norm_num
      have c1 : a * (1280 * ((2 ^ 24 + 1) ^ 3 - (2 ^ 24 - 1) * 2 ^ 48)) ≤
          a * ((2 ^ 24 - 1) * 2 ^ 48) := mul_le_mul_of_nonneg_left hnum (le_of_lt hapos)
      have c2 : a * ((2 ^ 24 - 1) * 2 ^ 48) ≤ l * ((2 ^ 24 - 1) * 2 ^ 48) :=
        mul_le_mul_of_nonneg_right hal (by norm_num)
      nlinarith [c1, c2]
    have hPle : P * l ≤ 1280 * a + l := by
      have hCpos : (0:ℚ) < (2 ^ 24 - 1) * 2 ^ 48 := by norm_num
      have h' : (P * l) * ((2 ^ 24 - 1) * 2 ^ 48) ≤
          (1280 * a + l) * ((2 ^ 24 - 1) * 2 ^ 48) := by
        have := le_trans hup hkey
        linarith
      exact le_of_mul_le_mul_right h' hCpos
    have hlow : 1280 * a * (2 ^ 24 - 1) ^ 3 ≤ P * l * ((2 ^ 24 + 1) * 2 ^ 48) := by
      have s2 : (a * (2 ^ 24 - 1)) * (1280 * (2 ^ 24 - 1) ^ 2) ≤
          (S * 2 ^ 24) * (1280 * (2 ^ 24 - 1) ^ 2) :=
        mul_le_mul_of_nonneg_right B2 (by norm_num)
      have s3 : (1280 * (2 ^ 24 - 1)) * (S * (2 ^ 24 - 1) * 2 ^ 24) ≤
          (R * L * 2 ^ 24) * (S * (2 ^ 24 - 1) * 2 ^ 24) :=
        mul_le_mul_of_nonneg_right B6
          (mul_nonneg (mul_nonneg (le_of_lt hSpos) (by norm_num)) (by norm_num))
      have s4 : (S * R * (2 ^ 24 - 1)) * (L * 2 ^ 48) ≤ (P * 2 ^ 24) * (L * 2 ^ 48) :=
        mul_le_mul_of_nonneg_right B8 (mul_nonneg (le_of_lt hLpos) (by norm_num))
      have s5 : (L * 2 ^ 24) * (P * 2 ^ 48) ≤ (l * (2 ^ 24 + 1)) * (P * 2 ^ 48) :=
        mul_le_mul_of_nonneg_right B3 (mul_nonneg hPnonneg (by norm_num))
      calc 1280 * a * (2 ^ 24 - 1) ^ 3
          = (a * (2 ^ 24 - 1)) * (1280 * (2 ^ 24 - 1) ^ 2) := by ring
        _ ≤ (S * 2 ^ 24) * (1280 * (2 ^ 24 - 1) ^ 2) := s2
        _ = (1280 * (2 ^ 24 - 1)) * (S * (2 ^ 24 - 1) * 2 ^ 24) := by ring
        _ ≤ (R * L * 2 ^ 24) * (S * (2 ^ 24 - 1) * 2 ^ 24) := s3
        _ = (S * R * (2 ^ 24 - 1)) * (L * 2 ^ 48) := by ring
        _ ≤ (P * 2 ^ 24) * (L * 2 ^ 48) := s4
        _ = (L * 2 ^ 24) * (P * 2 ^ 48) := by ring
        _ ≤ (l * (2 ^ 24 + 1)) * (P * 2 ^ 48) := s5
        _ = P * l * ((2 ^ 24 + 1) * 2 ^ 48) := by ring
    have hkey2 : (1280 * a - l) * ((2 ^ 24 + 1) * 2 ^ 48) ≤ 1280 * a * (2 ^ 24 - 1) ^ 3 := by
      have hnum : (1280:ℚ) * ((2 ^ 24 + 1) * 2 ^ 48 - (2 ^ 24 - 1) ^ 3) ≤
          (2 ^ 24 + 1) * 2 ^ 48 := by norm_num
      have c1 : a * (1280 * ((2 ^ 24 + 1) * 2 ^ 48 - (2 ^ 24 - 1) ^ 3)) ≤
          a * ((2 ^ 24 + 1) * 2 ^ 48) := mul_le_mul_of_nonneg_left hnum (le_of_lt hapos)
      have c2 : a * ((2 ^ 24 + 1) * 2 ^ 48) ≤ l * ((2 ^ 24 + 1) * 2 ^ 48) :=
        mul_le_mul_of_nonneg_right hal (by norm_num)
      nlinarith [c1, c2]
    have hPge : 1280 * a - l ≤ P * l := by
      have hCpos : (0:ℚ) < (2 ^ 24 + 1) * 2 ^ 48 := by norm_num
      have h' : (1280 * a - l) * ((2 ^ 24 + 1) * 2 ^ 48) ≤
          (P * l) * ((2 ^ 24 + 1) * 2 ^ 48) := by
        have := le_trans hkey2 hlow
        linarith
      exact le_of_mul_le_mul_right h' hCpos
    have hv1 : P ≤ 1280 * a / l + 1 := by
      rw [show 1280 * a / l + 1 = (1280 * a + l) / l by field_simp, le_div_iff₀ hlpos]
      linarith
    have hv2 : 1280 * a / l - 1 ≤ P := by
      rw [show 1280 * a / l - 1 = (1280 * a - l) / l by field_simp, div_le_iff₀ hlpos]
      linarith
    have hfl_up : ⌊P⌋ ≤ ⌊1280 * a / l⌋ + 1 := by
      have h1 := Int.floor_mono hv1
      rwa [Int.floor_add_one] at h1
    have hfl_lo : ⌊1280 * a / l⌋ - 1 ≤ ⌊P⌋ := by
      have h1 := Int.floor_mono hv2
      rwa [Int.floor_sub_one] at h1
    have hnatdiv : ⌊1280 * a / l⌋ = ((TARGET_SIZE * smaller / larger : ℕ) : ℤ) := by
      have h1 : 1280 * a = ((TARGET_SIZE * smaller : ℕ) : ℚ) := by
        rw [hadef]
        norm_num [TARGET_SIZE]
      rw [h1, hldef, Rat.floor_natCast_div_natCast]
      exact (Int.ofNat_tdiv _ _).symm
    have hPfloor_nonneg : 0 ≤ ⌊P⌋ := Int.floor_nonneg.mpr hPnonneg
    rw [Int.toNat_of_nonneg hPfloor_nonneg]
    omega

/-- The fitted dimension never exceeds the requested one (clamped to 1), for
any ratio below the f64 ratio `n / d`: the f64 relative errors (one from the
ratio, one from the product) total far less than the half needed to round up
past `n` when `n ≤ 1280`. -/
theorem fitDim_le {d n : ℕ} {ratio : ℚ} (hn : n ≤ 1280) (h0 : 0 ≤ ratio)
    (hr : ratio ≤ fl64 ((n : ℚ) / (d : ℚ))) : fitDim d ratio ≤ max n 1 := by
  have hd0 : (0:ℚ) ≤ (d : ℚ) := Nat.cast_nonneg d
  have hq0 : (0:ℚ) ≤ (n : ℚ) / (d : ℚ) := by positivity
  have h1 : fl64 ((n : ℚ) / d) ≤ (n : ℚ) / d + ((n : ℚ) / d) / 2 ^ 53 :=
    fl64_le_of_nonneg hq0
  have h2 : (d : ℚ) * ratio ≤ (n : ℚ) + (n : ℚ) / 2 ^ 53 := by
    have h3 : (d : ℚ) * ratio ≤ d * fl64 ((n : ℚ) / d) :=
      mul_le_mul_of_nonneg_left hr hd0
    have h4 : (d : ℚ) * ((n : ℚ) / d + ((n : ℚ) / d) / 2 ^ 53) ≤
        (n : ℚ) + (n : ℚ) / 2 ^ 53 := by
      rcases Nat.eq_zero_or_pos d with hdz | hdp
      · subst hdz
        simp only [Nat.cast_zero, zero_mul]
        positivity
      · have hdq : (0:ℚ) < d := by exact_mod_cast hdp
        have he : (d : ℚ) * ((n : ℚ) / d + ((n : ℚ) / d) / 2 ^ 53) =
            (n : ℚ) + (n : ℚ) / 2 ^ 53 := by
          field_simp
          ring
        exact le_of_eq he
    calc (d : ℚ) * ratio ≤ d * fl64 ((n : ℚ) / d) := h3
      _ ≤ d * ((n : ℚ) / d + ((n : ℚ) / d) / 2 ^ 53) :=
          mul_le_mul_of_nonneg_left h1 hd0
      _ ≤ (n : ℚ) + (n : ℚ) / 2 ^ 53 := h4
  have hx0 : (0:ℚ) ≤ (d : ℚ) * ratio := mul_nonneg hd0 h0
  have h5 : fl64 ((d : ℚ) * ratio) ≤ (d : ℚ) * ratio + ((d : ℚ) * ratio) / 2 ^ 53 :=
    fl64_le_of_nonneg hx0
  have h6 : fl64 ((d : ℚ) * ratio) < (n : ℚ) + 1/2 := by
    have hn' : (n : ℚ) ≤ 1280 := by exact_mod_cast hn
    have hnum : (1280:ℚ) / 2 ^ 53 + (1280 + 1280 / 2 ^ 53) / 2 ^ 53 < 1/2 := by norm_num
    have h7 : ((d : ℚ) * ratio) / 2 ^ 53 ≤ ((n : ℚ) + (n : ℚ) / 2 ^ 53) / 2 ^ 53 := by
      gcongr
    have h8 : ((n : ℚ) + (n : ℚ) / 2 ^ 53) / 2 ^ 53 ≤
        ((1280:ℚ) + 1280 / 2 ^ 53) / 2 ^ 53 := by gcongr
    have h9 : (n : ℚ) / 2 ^ 53 ≤ (1280:ℚ) / 2 ^ 53 := by gcongr
    linarith
  have h11 : ⌊fl64 ((d : ℚ) * ratio) + 1/2⌋ < (n : ℤ) + 1 := by
    apply Int.floor_lt.mpr
    push_cast
    linarith
  have h10 : roundAway (fl64 ((d : ℚ) * ratio)) ≤ (n : ℤ) := by
    unfold roundAway
    have h12 := Int.lt_iff_add_one_le.mp h11
    linarith
  have h13 : (roundAway (fl64 ((d : ℚ) * ratio))).toNat ≤ n := Int.toNat_le.mpr h10
  exact max_le_max h13 (le_refl 1)

/-- For a requested box within the bound, the image crate's fit stays within
the bound on both sides. -/
theorem resize_dimensions_le {w h nwidth nheight : ℕ}
    (hnw : nwidth ≤ 1280) (hnh : nheight ≤ 1280) :
    (resize_dimensions w h nwidth nheight).1 ≤ 1280 ∧
    (resize_dimensions w h nwidth nheight).2 ≤ 1280 := by
  have h0 : 0 ≤ fitRatio w h nwidth nheight := le_min (fl64_nonneg _) (fl64_nonneg _)
  have hfw : fitDim w (fitRatio w h nwidth nheight) ≤ max nwidth 1 :=
    fitDim_le hnw h0 (min_le_left _ _)
  have hfh : fitDim h (fitRatio w h nwidth nheight) ≤ max nheight 1 :=
    fitDim_le hnh h0 (min_le_right _ _)
  have hb1 : max nwidth 1 ≤ 1280 := max_le hnw (by norm_num)
  have hb2 : max nheight 1 ≤ 1280 := max_le hnh (by norm_num)
  unfold resize_dimensions
  rw [if_neg (by omega), if_neg (by omega)]
  exact ⟨le_trans hfw hb1, le_trans hfh hb2⟩

/-- The image crate's fit never returns a zero dimension: each side is clamped
to at least 1. -/
theorem resize_dimensions_pos (w h nwidth nheight : ℕ) :
    0 < (resize_dimensions w h nwidth nheight).1 ∧
    0 < (resize_dimensions w h nwidth nheight).2 := by
  have hp : ∀ d r, 0 < fitDim d r :=
    fun d r => lt_of_lt_of_le one_pos (le_max_right _ _)
  unfold resize_dimensions
  split_ifs <;> exact ⟨by first | exact hp _ _ | norm_num,
    by first | exact hp _ _ | norm_num⟩

end ResizeImage

namespace ResizeImage

/-! ### The encoder adapter `compress` (src/main.rs, lines 87-117) -/

/-- `mozjpeg::ColorSpace` values used by the program. -/
inductive ColorSpace where
  | JCS_RGB
  | JCS_GRAYSCALE
deriving DecidableEq

/-- `mozjpeg::ScanMode` values used by the program. -/
inductive ScanMode where
  | AllComponentsTogether
  | Auto
deriving DecidableEq

/-- The encoded JPEG produced by `compress`, recorded structurally: the
parameters handed to the encoder (`set_size`, `set_quality`,
`Compress::new(ColorSpace)`, `set_scan_optimization_mode`), the metadata
marker segments written before the pixel data, and the scanlines streamed
via `write_scanlines`.  `compress` calls no marker-writing API, so the only
way `markers` could be non-empty is a `write_marker` call, which does not
occur anywhere in `main.rs`. -/
structure Jpeg where
  width : ℕ
  height : ℕ
  quality : ℚ
  colorSpace : ColorSpace
  scanMode : ScanMode
  markers : List (ℕ × List ℕ)
  rows : List (List ℕ)
deriving DecidableEq

/-- Result of a `compress` call: an encoded JPEG, an error value
(`Err(String)`), or an abnormal non-return (panic or non-termination). -/
inductive CompResult where
  | ok : Jpeg → CompResult
  | err : String → CompResult
  | abnormal : CompResult
deriving DecidableEq

/-- The slice `&data[i * w * 3 .. (i + 1) * w * 3]` (line 107), as a value:
start `i * w * 3`, length `w * 3`. -/
def rowSlice (data : List ℕ) (w i : ℕ) : List ℕ :=
  (data.drop (i * w * 3)).take (w * 3)

/-- The scanline loop (lines 101-110), iterating `line` from `i` for `k` more
rows: each iteration takes the slice `data[line*w*3 .. (line+1)*w*3]` — Rust
slicing is bounds-checked and panics (`none`) when the end exceeds the buffer
length, so no out-of-bounds read can happen. -/
def scanRows (data : List ℕ) (w : ℕ) : ℕ → ℕ → Option (List (List ℕ))
  | _, 0 => some []
  | i, k + 1 =>
    if (i + 1) * w * 3 ≤ data.length then
      match scanRows data w (i + 1) k with
      | some rows => some (rowSlice data w i :: rows)
      | none => none
    else none

/-- `compress` (lines 87-117).  The loop runs `line` from 0 while
`line ≤ target_height - 1` in `usize` arithmetic.  When `target_height = 0`
the subtraction underflows: an overflow-checked build panics at once, and a
wrapping build either hits an out-of-range slice (panic) or never terminates —
in every build the call never returns, modelled as `.abnormal`.  An
out-of-range slice inside the loop is likewise a panic (`.abnormal`), not an
error return.  `set_mem_dest` is called before `start_compress`, so the final
`data_to_vec` succeeds and the `Err("data_to_vec failed")` branch (line 115)
is not taken; no code path of `compress` itself produces an `Err` value. -/
def compress (data : List ℕ) (w h : ℕ) : CompResult :=
  if h = 0 then .abnormal
  else
    match scanRows data w 0 h with
    | none => .abnormal
    | some rows =>
      .ok { width := w, height := h, quality := 70, colorSpace := .JCS_RGB,
            scanMode := .AllComponentsTogether, markers := [], rows := rows }

/-! ### The decoder adapter and `resize` (lines 59-85) -/

/-- The decoded image: dimensions, the RGB8 pixel buffer produced by
`to_rgb8` (row-major, 3 bytes per pixel), and the metadata segments
(tag, raw payload) embedded in the source file.  `image::open` decodes
pixels only; the metadata field records what the file carries so that its
(non-)preservation can be stated. -/
structure Image where
  width : ℕ
  height : ℕ
  pixels : List ℕ
  metadata : List (ℕ × List ℕ)
deriving DecidableEq

/-- Mirror of Rust's `Result<T, String>`. -/
inductive RustResult (T : Type) where
  | ok : T → RustResult T
  | err : String → RustResult T
deriving DecidableEq

def RustResult.isOk {T : Type} : RustResult T → Bool
  | .ok _ => true
  | .err _ => false

/-- One input file: its basename (`file_name`), the outcome of the external
decoder on its bytes, and whether the two I/O steps of `process`
(`File::create`, `write_all`) would succeed, with the error text they would
produce. -/
structure FileInput where
  name : String
  decodeResult : RustResult Image
  createOk : Bool
  writeOk : Bool
  ioErr : String
deriving DecidableEq

/-- `resize` (lines 59-85): decode via `image::open` (failure is returned as
`Err(e.to_string())`), then either resample via `DynamicImage::resize` or pass
the image through unchanged.  The Lanczos3 resampler is the external image
crate's; it is a parameter producing the pixel buffer, and the dimensions read
back from the resampled image (`resized_img.width()/height()`, lines 79-80)
are `resizeDims` — the crate's aspect-preserving refit of the requested
box. -/
def resize (sampler : List ℕ → ℕ × ℕ → ℕ × ℕ → List ℕ) (input : FileInput) :
    RustResult (List ℕ × ℕ × ℕ) :=
  match input.decodeResult with
  | .err e => .err e
  | .ok img =>
    if TARGET_SIZE < img.width ∨ TARGET_SIZE < img.height then
      .ok (sampler img.pixels (img.width, img.height) (resizeDims img.width img.height),
           (resizeDims img.width img.height).1, (resizeDims img.width img.height).2)
    else .ok (img.pixels, img.width, img.height)

/-! ### The pipeline `process` (lines 37-57) and the batch runner (lines 13-35) -/

/-- Per-file outcome as printed by `main` (lines 31-32). -/
inductive Outcome where
  | success : String → Outcome
  | failure : String → String → Outcome
deriving DecidableEq

/-- File-system side effects of `process`: `File::create(target_file)`
(truncating any existing file to empty) and `write_all` of the encoded
buffer. -/
inductive FsEffect where
  | create : String → FsEffect
  | write : String → Jpeg → FsEffect
deriving DecidableEq

/-- `target_dir.join("resized_" + file_name)` (line 50). -/
def outputPath (targetDir name : String) : String :=
  targetDir ++ "resized_" ++ name

/-- `process` (lines 37-57): resize, compress, create the target file, write
the encoded bytes.  Any step's `Err` is returned as a failure outcome tagged
with the file's name; the effect list records the file-system writes actually
performed.  `none` models a panic escaping `process` (only possible if
`compress` aborts abnormally). -/
def process (sampler : List ℕ → ℕ × ℕ → ℕ × ℕ → List ℕ) (targetDir : String)
    (input : FileInput) : Option (Outcome × List FsEffect) :=
  match resize sampler input with
  | .err e => some (.failure input.name e, [])
  | .ok (data, w, h) =>
    match compress data w h with
    | .abnormal => none
    | .err e => some (.failure input.name e, [])
    | .ok j =>
      if input.createOk then
        if input.writeOk then
          some (.success input.name,
            [.create (outputPath targetDir input.name),
             .write (outputPath targetDir input.name) j])
        else
          some (.failure input.name input.ioErr,
            [.create (outputPath targetDir input.name)])
      else some (.failure input.name input.ioErr, [])

/-- One command-line path: the properties `main` filters on (lines 22-26)
and the file data behind it. -/
structure PathEntry where
  isFile : Bool
  fileName : Option String
  extension : Option String
  input : FileInput
deriving DecidableEq

/-- The filter of line 25: `p.is_file() && p.file_name().is_some() &&
p.extension().is_some()`. -/
def eligible (p : PathEntry) : Bool :=
  p.isFile && p.fileName.isSome && p.extension.isSome

/-- `source_files` (lines 22-26). -/
def sourceFiles (args : List PathEntry) : List PathEntry :=
  args.filter eligible

/-- The rayon loop body over a path list: every path's `process` must come
back with an outcome; a panic in any task propagates out of `for_each` and
aborts the whole batch, modelled by the result being `none`. -/
def collectOutcomes (sampler : List ℕ → ℕ × ℕ → ℕ × ℕ → List ℕ)
    (targetDir : String) : List PathEntry → Option (List (PathEntry × Outcome))
  | [] => some []
  | p :: rest =>
    match process sampler targetDir p.input, collectOutcomes sampler targetDir rest with
    | some r, some rs => some ((p, r.1) :: rs)
    | _, _ => none

/-- The batch runner (lines 28-33): one outcome per eligible path, each
reported with its path. -/
def runBatch (sampler : List ℕ → ℕ × ℕ → ℕ × ℕ → List ℕ) (targetDir : String)
    (args : List PathEntry) : Option (List (PathEntry × Outcome)) :=
  collectOutcomes sampler targetDir (sourceFiles args)

def isSuccess : Outcome → Bool
  | .success _ => true
  | .failure _ _ => false

def isErr : CompResult → Bool
  | .err _ => true
  | _ => false

/-- A file succeeds end-to-end iff its decode and both I/O steps succeed. -/
def succeeds (input : FileInput) : Bool :=
  input.decodeResult.isOk && input.createOk && input.writeOk

/-- The error text a failing file is reported with. -/
def failMsg (input : FileInput) : String :=
  match input.decodeResult with
  | .err e => e
  | .ok _ => input.ioErr

/-- What the external decoder guarantees about any image it returns: the RGB8
buffer has exactly `width * height` pixels of 3 bytes and both dimensions are
at least 1 (no decoder produces an empty image). -/
def wfInput (input : FileInput) : Bool :=
  match input.decodeResult with
  | .err _ => true
  | .ok img =>
    (img.pixels.length == 3 * (img.width * img.height)) &&
      (img.width != 0) && (img.height != 0)

/-- What the external resampler guarantees: the produced buffer has exactly
3 bytes per pixel of the requested dimensions. -/
def wfSampler (sampler : List ℕ → ℕ × ℕ → ℕ × ℕ → List ℕ) : Prop :=
  ∀ data src tgt, (sampler data src tgt).length = 3 * (tgt.1 * tgt.2)

/-- Contents of a path after the effects: `File::create` truncates to an
empty file, `write_all` stores the encoded image. -/
inductive FileContent where
  | empty
  | jpeg : Jpeg → FileContent
deriving DecidableEq

def applyEffect (fs : String → Option FileContent) :
    FsEffect → (String → Option FileContent)
  | .create p => fun q => if q = p then some .empty else fs q
  | .write p j => fun q => if q = p then some (.jpeg j) else fs q

def applyEffects (fs : String → Option FileContent) :
    List FsEffect → (String → Option FileContent)
  | [] => fs
  | e :: rest => applyEffects (applyEffect fs e) rest

end ResizeImage

namespace ResizeImage

theorem targetDims_le {w h : ℕ} (hc : TARGET_SIZE < w ∨ TARGET_SIZE < h) :
    (targetDims w h).1 ≤ TARGET_SIZE ∧ (targetDims w h).2 ≤ TARGET_SIZE := by
  have ht : TARGET_SIZE = 1280 := rfl
  unfold targetDims
  split_ifs with hlt
  · have hw : 0 < w := by omega
    exact ⟨le_refl _, scaled_le_target (le_of_lt hlt) hw⟩
  · push_neg at hlt
    have hh : 0 < h := by omega
    exact ⟨scaled_le_target hlt hh, le_refl _⟩

theorem resizeDims_le (w h : ℕ) :
    (resizeDims w h).1 ≤ TARGET_SIZE ∧ (resizeDims w h).2 ≤ TARGET_SIZE := by
  have ht : TARGET_SIZE = 1280 := rfl
  unfold resizeDims
  split_ifs with hc
  · obtain ⟨h1, h2⟩ := targetDims_le hc
    rw [ht] at h1 h2 ⊢
    exact resize_dimensions_le h1 h2
  · push_neg at hc
    exact ⟨hc.1, hc.2⟩

/-- C8: resize is idempotent on dimensions for the fixed bound 1280: both
dimensions the external resampler returns for the requested box are at most
the bound, so a second application takes the pass-through branch and returns
the dimensions unchanged.  The positivity hypotheses record that decoded
images have positive dimensions (the crate's f64 arithmetic on a zero
dimension involves NaN, outside this rational model). -/
theorem claim_C8_idempotent (w h : ℕ) (_hw : 0 < w) (_hh : 0 < h) :
    resizeDims (resizeDims w h).1 (resizeDims w h).2 = resizeDims w h := by
  obtain ⟨h1, h2⟩ := resizeDims_le w h
  set d := resizeDims w h with hd
  have hneg : ¬ (TARGET_SIZE < d.1 ∨ TARGET_SIZE < d.2) :=
    not_or.mpr ⟨not_lt.mpr h1, not_lt.mpr h2⟩
  unfold resizeDims
  rw [if_neg hneg]

set_option maxRecDepth 20000 in
theorem claim_C8_witness :
    0 < 4000 ∧ 0 < 3000 ∧
    resizeDims (resizeDims 4000 3000).1 (resizeDims 4000 3000).2 =
      resizeDims 4000 3000 :=
  ⟨by decide, by decide, claim_C8_idempotent 4000 3000 (by decide) (by decide)⟩

set_option maxRecDepth 20000 in
/-- C1 counterexample: a 1410×141 source image.  The code requests a 1280×127
box (the f32 computation; `⌊141 * 1280 / 1410⌋` is actually 128), but the
external resampler refits that box preserving the source aspect ratio and
returns a 1270×127 image: the larger output dimension is not 1280 and the
smaller is not the exact floor, refuting both equalities of the claim. -/
theorem claim_C1_counterexample :
    resizeDims 1410 141 = (1270, 127) ∧
    targetDims 1410 141 = (1280, 127) ∧
    max (resizeDims 1410 141).1 (resizeDims 1410 141).2 ≠ 1280 ∧
    TARGET_SIZE * 141 / 1410 = 128 := by decide

set_option maxRecDepth 20000 in
/-- C1 (amended): for every source with a dimension above the bound, the box
the code requests (`targetDims`, lines 65-71) has larger side exactly 1280 and
smaller side within one of `⌊smaller * 1280 / larger⌋` (not always equal: the
f32 arithmetic can be off by one); the image actually returned by the external
resampler fits that box, so both of its dimensions are at most 1280 — but its
larger side can fall strictly below 1280 (see the counterexample); a 4000×3000
input yields exactly 1280×960. -/
theorem claim_C1_dimensions (w h : ℕ) (_hbig : TARGET_SIZE < w ∨ TARGET_SIZE < h)
    (hw : 0 < w) (hh : 0 < h) :
    max (targetDims w h).1 (targetDims w h).2 = TARGET_SIZE ∧
    (((min (targetDims w h).1 (targetDims w h).2 : ℕ) : ℤ) -
        ((TARGET_SIZE * min w h / max w h : ℕ) : ℤ)).natAbs ≤ 1 ∧
    max (resizeDims w h).1 (resizeDims w h).2 ≤ TARGET_SIZE ∧
    resizeDims 4000 3000 = (1280, 960) := by
  have ht : TARGET_SIZE = 1280 := rfl
  refine ⟨?_, ?_, ?_, by decide⟩
  · unfold targetDims
    split_ifs with hlt
    · have hs := scaled_le_target (le_of_lt hlt) hw
      exact max_eq_left hs
    · push_neg at hlt
      have hs := scaled_le_target hlt hh
      exact max_eq_right hs
  · unfold targetDims
    split_ifs with hlt
    · have hs := scaled_le_target (le_of_lt hlt) hw
      have hnear := scaled_within_one (le_of_lt hlt) hw
      rw [ht] at hs hnear ⊢
      rw [min_eq_right (le_of_lt hlt), max_eq_left (le_of_lt hlt)]
      simp only
      rw [min_eq_right hs]
      exact hnear
    · push_neg at hlt
      have hs := scaled_le_target hlt hh
      have hnear := scaled_within_one hlt hh
      rw [ht] at hs hnear ⊢
      rw [min_eq_left hlt, max_eq_right hlt]
      simp only
      rw [min_eq_left hs]
      exact hnear
  · obtain ⟨h1, h2⟩ := resizeDims_le w h
    exact max_le h1 h2

set_option maxRecDepth 20000 in
theorem claim_C1_witness :
    ((TARGET_SIZE < 4000 ∨ TARGET_SIZE < 3000) ∧ 0 < 4000 ∧ 0 < 3000) ∧
    (max (targetDims 4000 3000).1 (targetDims 4000 3000).2 = TARGET_SIZE ∧
     (((min (targetDims 4000 3000).1 (targetDims 4000 3000).2 : ℕ) : ℤ) -
        ((TARGET_SIZE * min 4000 3000 / max 4000 3000 : ℕ) : ℤ)).natAbs ≤ 1 ∧
     max (resizeDims 4000 3000).1 (resizeDims 4000 3000).2 ≤ TARGET_SIZE ∧
     resizeDims 4000 3000 = (1280, 960)) :=
  ⟨⟨by decide, by decide, by decide⟩,
    claim_C1_dimensions 4000 3000 (by decide) (by decide) (by decide)⟩

end ResizeImage

namespace ResizeImage

theorem scanRows_some (data : List ℕ) (w : ℕ) :
    ∀ (k i : ℕ), (i + k) * w * 3 ≤ data.length →
      scanRows data w i k = some ((List.range k).map fun j => rowSlice data w (i + j)) := by
  intro k
  induction k with
  | zero =>
    intro i _
    simp [scanRows]
  | succ k ih =>
    intro i hle
    have h1 : (i + 1) * w * 3 ≤ data.length := by
      calc (i + 1) * w * 3 ≤ (i + (k + 1)) * w * 3 := by
            exact Nat.mul_le_mul_right 3 (Nat.mul_le_mul_right w (by omega))
        _ ≤ data.length := hle
    have h2 : (i + 1 + k) * w * 3 ≤ data.length := by
      have heq : i + 1 + k = i + (k + 1) := by omega
      rw [heq]
      exact hle
    simp only [scanRows]
    rw [if_pos h1, ih (i + 1) h2]
    simp only [List.range_succ_eq_map, List.map_cons, List.map_map]
    congr 1
    congr 1
    apply List.map_congr_left
    intro j _
    simp only [Function.comp_apply]
    congr 1
    omega

theorem scanRows_none (data : List ℕ) (w : ℕ) :
    ∀ (k i : ℕ), 0 < k → data.length < (i + k) * w * 3 →
      scanRows data w i k = none := by
  intro k
  induction k with
  | zero =>
    intro i h0
    exact absurd h0 (lt_irrefl 0)
  | succ k ih =>
    intro i _ hlt
    simp only [scanRows]
    split_ifs with hc
    · rcases Nat.eq_zero_or_pos k with hk0 | hkpos
      · subst hk0
        have heq : i + (0 + 1) = i + 1 := by omega
        rw [heq] at hlt
        exact absurd hc (not_le.mpr hlt)
      · have heq : i + (k + 1) = i + 1 + k := by omega
        rw [heq] at hlt
        rw [ih (i + 1) hkpos hlt]
    · rfl

/-- C4 (amended): when the buffer is long enough, the encoder is fed exactly
`h` scanlines, row `i` being precisely the slice
`data[i*w*3 .. (i+1)*w*3]`, rows 0 through `h-1` in order, none skipped and
none duplicated; a too-short buffer makes the bounds-checked slice panic
(abnormal abort, no out-of-bounds access), not an error result.  A too-long
buffer is NOT rejected (see the counterexample): its extra bytes are silently
ignored. -/
theorem claim_C4_scanlines (data : List ℕ) (w h : ℕ) (hh : 1 ≤ h) :
    (3 * (w * h) ≤ data.length →
      compress data w h = .ok ⟨w, h, 70, .JCS_RGB, .AllComponentsTogether, [],
        (List.range h).map fun i => rowSlice data w i⟩) ∧
    (data.length < 3 * (w * h) → compress data w h = .abnormal) := by
  have hne : h ≠ 0 := by omega
  constructor
  · intro hlen
    unfold compress
    rw [if_neg hne]
    have hb : (0 + h) * w * 3 ≤ data.length := by
      calc (0 + h) * w * 3 = 3 * (w * h) := by ring
        _ ≤ data.length := hlen
    rw [scanRows_some data w h 0 hb]
    simp [Nat.zero_add]
  · intro hlen
    unfold compress
    rw [if_neg hne]
    have hb : data.length < (0 + h) * w * 3 := by
      calc data.length < 3 * (w * h) := hlen
        _ = (0 + h) * w * 3 := by ring
    rw [scanRows_none data w h 0 (by omega) hb]

theorem claim_C4_witness :
    1 ≤ 1 ∧
    ((3 * (1 * 1) ≤ [10, 20, 30].length →
      compress [10, 20, 30] 1 1 = .ok ⟨1, 1, 70, .JCS_RGB, .AllComponentsTogether, [],
        (List.range 1).map fun i => rowSlice [10, 20, 30] 1 i⟩) ∧
     ([10, 20, 30].length < 3 * (1 * 1) → compress [10, 20, 30] 1 1 = .abnormal)) :=
  ⟨by decide, claim_C4_scanlines [10, 20, 30] 1 1 (by decide)⟩

/-- C4 counterexample: a 6-byte buffer for a 1×1 image (needing 3 bytes) is
not rejected — `compress` succeeds, silently ignoring the extra bytes, so a
buffer-length mismatch does NOT produce an error result. -/
theorem claim_C4_counterexample :
    compress [10, 20, 30, 40, 50, 60] 1 1 =
      .ok ⟨1, 1, 70, .JCS_RGB, .AllComponentsTogether, [], [[10, 20, 30]]⟩ ∧
    [10, 20, 30, 40, 50, 60].length ≠ 1 * 1 * 3 := by decide

/-- C5 (amended): a zero requested height makes `target_height - 1`
underflow, so `compress` aborts abnormally (panic or non-termination) for
every buffer and width; it never returns — in particular it does not return
an `Err` (EncodeError) value, and no zero-dimension check exists in this
code. -/
theorem claim_C5_zero_height (data : List ℕ) (w : ℕ) :
    compress data w 0 = .abnormal := by
  unfold compress
  simp

/-- C5 counterexample: at width 1, height 0, `compress` aborts abnormally —
it does not return an EncodeError (`err`) result as the claim states. -/
theorem claim_C5_counterexample :
    compress [] 1 0 = .abnormal ∧ isErr (compress [] 1 0) = false := by decide

end ResizeImage

namespace ResizeImage

/-- C3: for a decodable source whose width and height are both within the
bound, `resize` passes the image through unmodified — original width, original
height, and the unresampled RGB buffer — and re-encoding that buffer keeps
width and height exactly. -/
theorem claim_C3_passthrough (sampler : List ℕ → ℕ × ℕ → ℕ × ℕ → List ℕ)
    (input : FileInput) (img : Image) (hdec : input.decodeResult = .ok img)
    (hw : img.width ≤ TARGET_SIZE) (hh : img.height ≤ TARGET_SIZE) :
    resize sampler input = .ok (img.pixels, img.width, img.height) ∧
    (∀ j, compress img.pixels img.width img.height = .ok j →
      j.width = img.width ∧ j.height = img.height) := by
  constructor
  · simp only [resize, hdec]
    rw [if_neg (not_or.mpr ⟨not_lt.mpr hw, not_lt.mpr hh⟩)]
  · intro j hj
    unfold compress at hj
    by_cases h0 : img.height = 0
    · rw [if_pos h0] at hj
      exact CompResult.noConfusion hj
    · rw [if_neg h0] at hj
      cases hs : scanRows img.pixels img.width 0 img.height with
      | none =>
        rw [hs] at hj
        exact CompResult.noConfusion hj
      | some rows =>
        rw [hs] at hj
        injection hj with hj
        subst hj
        exact ⟨rfl, rfl⟩


theorem claim_C3_witness :
    ((⟨"a.jpg", .ok ⟨1, 1, [5, 6, 7], []⟩, true, true, "io"⟩ : FileInput).decodeResult =
        .ok ⟨1, 1, [5, 6, 7], []⟩ ∧
      (1:ℕ) ≤ TARGET_SIZE ∧ (1:ℕ) ≤ TARGET_SIZE) ∧
    (resize (fun d _ _ => d) ⟨"a.jpg", .ok ⟨1, 1, [5, 6, 7], []⟩, true, true, "io"⟩ =
        .ok ([5, 6, 7], 1, 1) ∧
      (∀ j, compress [5, 6, 7] 1 1 = .ok j → j.width = 1 ∧ j.height = 1)) :=
  ⟨⟨rfl, by decide, by decide⟩,
    claim_C3_passthrough (fun d _ _ => d)
      ⟨"a.jpg", .ok ⟨1, 1, [5, 6, 7], []⟩, true, true, "io"⟩
      ⟨1, 1, [5, 6, 7], []⟩ rfl (by decide) (by decide)⟩

/-- C7: a failure at the read/decode stage (the only fallible part of
`resize`) yields a failure outcome with an empty effect list — no file is
created at all; and in every run of `process`, a `File::create` effect occurs
only when `compress` has already returned the complete encoded buffer. -/
theorem claim_C7_no_partial_output (sampler : List ℕ → ℕ × ℕ → ℕ × ℕ → List ℕ)
    (targetDir : String) (input : FileInput) :
    (∀ e, resize sampler input = .err e →
      process sampler targetDir input = some (.failure input.name e, [])) ∧
    (∀ r, process sampler targetDir input = some r →
      ∀ p, FsEffect.create p ∈ r.2 →
        ∃ data w h j, resize sampler input = .ok (data, w, h) ∧
          compress data w h = .ok j) := by
  constructor
  · intro e he
    unfold process
    rw [he]
  · intro r hr p hp
    unfold process at hr
    cases hres : resize sampler input with
    | err e =>
      rw [hres] at hr
      injection hr with hr
      subst hr
      simp at hp
    | ok triple =>
      obtain ⟨data, w, h⟩ := triple
      rw [hres] at hr
      dsimp only at hr
      cases hcomp : compress data w h with
      | abnormal => rw [hcomp] at hr; simp at hr
      | err e =>
        rw [hcomp] at hr
        dsimp only at hr
        injection hr with hr
        subst hr
        simp at hp
      | ok j => exact ⟨data, w, h, j, rfl, hcomp⟩

theorem claim_C7_witness :
    process (fun d _ _ => d) "out/" ⟨"b.jpg", .err "bad header", true, true, "io"⟩ =
      some (.failure "b.jpg" "bad header", []) :=
  (claim_C7_no_partial_output (fun d _ _ => d) "out/"
      ⟨"b.jpg", .err "bad header", true, true, "io"⟩).1 "bad header" (by decide)

/-- C2 (amended): the pipeline ignores metadata entirely: no step reads the
decoded image's metadata segments and the encoder writes none
(`compress` calls no marker-writing API), so the whole result of `process` —
outcome and file-system effects, encoded output included — is invariant under
arbitrary replacement of the input's metadata segments, which are therefore
dropped rather than carried into the output. -/
theorem claim_C2_metadata_dropped (sampler : List ℕ → ℕ × ℕ → ℕ × ℕ → List ℕ)
    (targetDir name : String) (w h : ℕ) (px : List ℕ)
    (m1 m2 : List (ℕ × List ℕ)) (cOk wOk : Bool) (io : String) :
    process sampler targetDir ⟨name, .ok ⟨w, h, px, m1⟩, cOk, wOk, io⟩ =
      process sampler targetDir ⟨name, .ok ⟨w, h, px, m2⟩, cOk, wOk, io⟩ := rfl

/-- C2 counterexample: an input carrying one Exif-style metadata segment is
processed successfully, and the encoded output contains no metadata segment
at all — the input's segments are not carried into the output. -/
theorem claim_C2_counterexample :
    (⟨2, 1, [1, 2, 3, 4, 5, 6], [(225, [7, 8, 9])]⟩ : Image).metadata ≠ [] ∧
    resize (fun d _ _ => d)
        ⟨"m.jpg", .ok ⟨2, 1, [1, 2, 3, 4, 5, 6], [(225, [7, 8, 9])]⟩, true, true, "io"⟩ =
      .ok ([1, 2, 3, 4, 5, 6], 2, 1) ∧
    compress [1, 2, 3, 4, 5, 6] 2 1 =
      .ok ⟨2, 1, 70, .JCS_RGB, .AllComponentsTogether, [], [[1, 2, 3, 4, 5, 6]]⟩ ∧
    (⟨2, 1, 70, .JCS_RGB, .AllComponentsTogether, [], [[1, 2, 3, 4, 5, 6]]⟩ : Jpeg).markers =
      [] := by decide

end ResizeImage

namespace ResizeImage

/-- The outcome `process` reports for a file, as a function of that file's
own data alone. -/
def expectedOutcome (input : FileInput) : Outcome :=
  if succeeds input then .success input.name else .failure input.name (failMsg input)

/-- The file-system effects of a fully processed file. -/
def expectedEffects (targetDir : String) (input : FileInput) (j : Jpeg) : List FsEffect :=
  if input.createOk then
    if input.writeOk then
      [.create (outputPath targetDir input.name), .write (outputPath targetDir input.name) j]
    else [.create (outputPath targetDir input.name)]
  else []

theorem compress_ok_of_length (data : List ℕ) (w h : ℕ) (hh : h ≠ 0)
    (hlen : 3 * (w * h) ≤ data.length) : ∃ j, compress data w h = .ok j := by
  unfold compress
  rw [if_neg hh]
  have hb : (0 + h) * w * 3 ≤ data.length := by
    calc (0 + h) * w * 3 = 3 * (w * h) := by ring
      _ ≤ data.length := hlen
  rw [scanRows_some data w h 0 hb]
  exact ⟨_, rfl⟩

theorem process_spec (sampler : List ℕ → ℕ × ℕ → ℕ × ℕ → List ℕ)
    (targetDir : String) (input : FileInput) (hs : wfSampler sampler)
    (hw : wfInput input = true) :
    ∃ effs, process sampler targetDir input = some (expectedOutcome input, effs) := by
  cases hdec : input.decodeResult with
  | err e =>
    refine ⟨[], ?_⟩
    simp [process, resize, hdec, expectedOutcome, succeeds, failMsg, RustResult.isOk]
  | ok img =>
    unfold wfInput at hw
    rw [hdec] at hw
    simp only [Bool.and_eq_true, beq_iff_eq, bne_iff_ne, ne_eq] at hw
    obtain ⟨⟨hlen, hwne⟩, hhne⟩ := hw
    have hres : ∃ data w' h', resize sampler input = .ok (data, w', h') ∧
        data.length = 3 * (w' * h') ∧ h' ≠ 0 := by
      unfold resize
      rw [hdec]
      dsimp only
      by_cases hc : TARGET_SIZE < img.width ∨ TARGET_SIZE < img.height
      · rw [if_pos hc]
        refine ⟨_, _, _, rfl, hs _ _ _, ?_⟩
        unfold resizeDims
        rw [if_pos hc]
        exact Nat.pos_iff_ne_zero.mp (resize_dimensions_pos _ _ _ _).2
      · rw [if_neg hc]
        exact ⟨img.pixels, img.width, img.height, rfl, hlen, hhne⟩
    obtain ⟨data, w', h', hres, hlen', hh'⟩ := hres
    obtain ⟨j, hcomp⟩ := compress_ok_of_length data w' h' hh' (le_of_eq hlen'.symm)
    refine ⟨expectedEffects targetDir input j, ?_⟩
    cases hcr : input.createOk <;> cases hwr : input.writeOk <;>
      simp [process, hres, hcomp, expectedOutcome, expectedEffects, succeeds, failMsg,
        hdec, RustResult.isOk, hcr, hwr]

theorem collectOutcomes_spec (sampler : List ℕ → ℕ × ℕ → ℕ × ℕ → List ℕ)
    (targetDir : String) (hs : wfSampler sampler) :
    ∀ l : List PathEntry, (∀ p ∈ l, wfInput p.input = true) →
      collectOutcomes sampler targetDir l =
        some (l.map fun p => (p, expectedOutcome p.input)) := by
  intro l
  induction l with
  | nil => intro _; rfl
  | cons p rest ih =>
    intro hw
    obtain ⟨effs, hp⟩ := process_spec sampler targetDir p.input hs (hw p (by simp))
    have hrest := ih fun q hq => hw q (by simp [hq])
    simp [collectOutcomes, hp, hrest]

theorem collect_fst (sampler : List ℕ → ℕ × ℕ → ℕ × ℕ → List ℕ)
    (targetDir : String) :
    ∀ (l : List PathEntry) (res : List (PathEntry × Outcome)),
      collectOutcomes sampler targetDir l = some res → res.map Prod.fst = l := by
  intro l
  induction l with
  | nil =>
    intro res h
    injection h with h
    rw [← h]
    rfl
  | cons p rest ih =>
    intro res h
    unfold collectOutcomes at h
    cases hp : process sampler targetDir p.input with
    | none => rw [hp] at h; simp at h
    | some r =>
      rw [hp] at h
      cases hrest : collectOutcomes sampler targetDir rest with
      | none => rw [hrest] at h; simp at h
      | some rs =>
        rw [hrest] at h
        dsimp only at h
        injection h with h
        subst h
        simp [ih rs hrest]

theorem length_filter_map_eq {α β : Type} (f : α → β) (q : β → Bool) :
    ∀ l : List α, ((l.map f).filter q).length = (l.filter fun a => q (f a)).length := by
  intro l
  induction l with
  | nil => rfl
  | cons a t ih =>
    simp only [List.map_cons, List.filter_cons]
    cases hq : q (f a) <;> simp [hq, ih]

theorem isSuccess_expected (input : FileInput) :
    isSuccess (expectedOutcome input) = succeeds input := by
  cases hsucc : succeeds input <;> simp [expectedOutcome, hsucc, isSuccess]

end ResizeImage

namespace ResizeImage

/-- C6: under the decoder and resampler guarantees (`wfInput`, `wfSampler`)
the batch never aborts; it yields exactly one outcome per eligible path, in
order, each pairing the path with an outcome computed from that path's own
data alone (`expectedOutcome`), so no file's failure can change any other
file's outcome; and the success/failure outcome counts equal the counts of
fully-succeeding/failing eligible inputs — N valid files plus one corrupt
file give exactly N successes and 1 failure. -/
theorem claim_C6_isolation (sampler : List ℕ → ℕ × ℕ → ℕ × ℕ → List ℕ)
    (targetDir : String) (args : List PathEntry) (hs : wfSampler sampler)
    (hw : ∀ p ∈ args, wfInput p.input = true) :
    runBatch sampler targetDir args =
      some ((sourceFiles args).map fun p => (p, expectedOutcome p.input)) ∧
    ∀ res, runBatch sampler targetDir args = some res →
      res.map Prod.fst = sourceFiles args ∧
      (res.filter fun r => isSuccess r.2).length =
        ((sourceFiles args).filter fun p => succeeds p.input).length ∧
      (res.filter fun r => !isSuccess r.2).length =
        ((sourceFiles args).filter fun p => !succeeds p.input).length := by
  have hw' : ∀ p ∈ sourceFiles args, wfInput p.input = true := fun p hp =>
    hw p (List.mem_of_mem_filter hp)
  have h1 := collectOutcomes_spec sampler targetDir hs (sourceFiles args) hw'
  refine ⟨h1, ?_⟩
  intro res hres
  unfold runBatch at hres
  rw [h1] at hres
  injection hres with hres
  subst hres
  refine ⟨collect_fst sampler targetDir (sourceFiles args) _ h1, ?_, ?_⟩
  · rw [length_filter_map_eq]
    congr 1
    apply List.filter_congr
    intro p _
    rw [isSuccess_expected]
  · rw [length_filter_map_eq]
    congr 1
    apply List.filter_congr
    intro p _
    rw [isSuccess_expected]

theorem claim_C6_witness :
    wfSampler (fun _ _ t => List.replicate (3 * (t.1 * t.2)) 0) ∧
    (∀ p ∈ [(⟨true, some "a.jpg", some "jpg",
              ⟨"a.jpg", .ok ⟨1, 1, [0, 0, 0], []⟩, true, true, "io"⟩⟩ : PathEntry),
            ⟨true, some "c.jpg", some "jpg",
              ⟨"c.jpg", .err "corrupt", true, true, "io"⟩⟩],
        wfInput p.input = true) ∧
    (runBatch (fun _ _ t => List.replicate (3 * (t.1 * t.2)) 0) "out/"
        [⟨true, some "a.jpg", some "jpg",
           ⟨"a.jpg", .ok ⟨1, 1, [0, 0, 0], []⟩, true, true, "io"⟩⟩,
         ⟨true, some "c.jpg", some "jpg",
           ⟨"c.jpg", .err "corrupt", true, true, "io"⟩⟩] =
      some ((sourceFiles
          [⟨true, some "a.jpg", some "jpg",
             ⟨"a.jpg", .ok ⟨1, 1, [0, 0, 0], []⟩, true, true, "io"⟩⟩,
           ⟨true, some "c.jpg", some "jpg",
             ⟨"c.jpg", .err "corrupt", true, true, "io"⟩⟩]).map
        fun p => (p, expectedOutcome p.input)) ∧
     ∀ res, runBatch (fun _ _ t => List.replicate (3 * (t.1 * t.2)) 0) "out/"
          [⟨true, some "a.jpg", some "jpg",
             ⟨"a.jpg", .ok ⟨1, 1, [0, 0, 0], []⟩, true, true, "io"⟩⟩,
           ⟨true, some "c.jpg", some "jpg",
             ⟨"c.jpg", .err "corrupt", true, true, "io"⟩⟩] = some res →
        res.map Prod.fst = sourceFiles
          [⟨true, some "a.jpg", some "jpg",
             ⟨"a.jpg", .ok ⟨1, 1, [0, 0, 0], []⟩, true, true, "io"⟩⟩,
           ⟨true, some "c.jpg", some "jpg",
             ⟨"c.jpg", .err "corrupt", true, true, "io"⟩⟩] ∧
        (res.filter fun r => isSuccess r.2).length =
          ((sourceFiles
            [⟨true, some "a.jpg", some "jpg",
               ⟨"a.jpg", .ok ⟨1, 1, [0, 0, 0], []⟩, true, true, "io"⟩⟩,
             ⟨true, some "c.jpg", some "jpg",
               ⟨"c.jpg", .err "corrupt", true, true, "io"⟩⟩]).filter
            fun p => succeeds p.input).length ∧
        (res.filter fun r => !isSuccess r.2).length =
          ((sourceFiles
            [⟨true, some "a.jpg", some "jpg",
               ⟨"a.jpg", .ok ⟨1, 1, [0, 0, 0], []⟩, true, true, "io"⟩⟩,
             ⟨true, some "c.jpg", some "jpg",
               ⟨"c.jpg", .err "corrupt", true, true, "io"⟩⟩]).filter
            fun p => !succeeds p.input).length) :=
  ⟨fun _ _ _ => List.length_replicate _ _, by decide,
    claim_C6_isolation (fun _ _ t => List.replicate (3 * (t.1 * t.2)) 0) "out/" _
      (fun _ _ _ => List.length_replicate _ _) (by decide)⟩

/-- C9: a path that is not a regular file or has no extension is excluded by
the filter before dispatch: it never appears among the source files, and no
outcome of any batch run is attributed to it. -/
theorem claim_C9_excluded (sampler : List ℕ → ℕ × ℕ → ℕ × ℕ → List ℕ)
    (targetDir : String) (args : List PathEntry) (p : PathEntry)
    (hp : p.isFile = false ∨ p.extension = none) :
    p ∉ sourceFiles args ∧
    ∀ res, runBatch sampler targetDir args = some res →
      ∀ q o, (q, o) ∈ res → q ≠ p := by
  have hel : eligible p = false := by
    unfold eligible
    rcases hp with h | h <;> simp [h]
  constructor
  · intro hmem
    have h2 := List.of_mem_filter hmem
    rw [hel] at h2
    exact Bool.noConfusion h2
  · intro res hres q o hqo heq
    subst heq
    have h1 : q ∈ res.map Prod.fst := List.mem_map_of_mem Prod.fst hqo
    unfold runBatch at hres
    rw [collect_fst sampler targetDir (sourceFiles args) res hres] at h1
    have h2 := List.of_mem_filter h1
    rw [hel] at h2
    exact Bool.noConfusion h2

theorem claim_C9_witness :
    ((⟨false, some "dir", none, ⟨"dir", .err "is a directory", true, true, "io"⟩⟩
        : PathEntry).isFile = false ∨
      (⟨false, some "dir", none, ⟨"dir", .err "is a directory", true, true, "io"⟩⟩
        : PathEntry).extension = none) ∧
    ((⟨false, some "dir", none, ⟨"dir", .err "is a directory", true, true, "io"⟩⟩
        : PathEntry) ∉ sourceFiles
        [⟨false, some "dir", none, ⟨"dir", .err "is a directory", true, true, "io"⟩⟩] ∧
     ∀ res, runBatch (fun d _ _ => d) "out/"
          [⟨false, some "dir", none, ⟨"dir", .err "is a directory", true, true, "io"⟩⟩] =
          some res →
        ∀ q o, (q, o) ∈ res →
          q ≠ ⟨false, some "dir", none, ⟨"dir", .err "is a directory", true, true, "io"⟩⟩) :=
  ⟨Or.inl rfl,
    claim_C9_excluded (fun d _ _ => d) "out/"
      [⟨false, some "dir", none, ⟨"dir", .err "is a directory", true, true, "io"⟩⟩]
      ⟨false, some "dir", none, ⟨"dir", .err "is a directory", true, true, "io"⟩⟩
      (Or.inl rfl)⟩

end ResizeImage

namespace ResizeImage

theorem process_write_shape (sampler : List ℕ → ℕ × ℕ → ℕ × ℕ → List ℕ)
    (targetDir : String) (input : FileInput) (r : Outcome × List FsEffect)
    (h : process sampler targetDir input = some r) :
    ∀ p j, FsEffect.write p j ∈ r.2 →
      p = outputPath targetDir input.name ∧
      r.2 = [FsEffect.create (outputPath targetDir input.name),
             FsEffect.write (outputPath targetDir input.name) j] ∧
      r.1 = Outcome.success input.name := by
  intro p j hpj
  unfold process at h
  cases hres : resize sampler input with
  | err e =>
    rw [hres] at h
    injection h with h
    subst h
    simp at hpj
  | ok triple =>
    obtain ⟨data, w, hh⟩ := triple
    rw [hres] at h
    dsimp only at h
    cases hcomp : compress data w hh with
    | abnormal => rw [hcomp] at h; simp at h
    | err e =>
      rw [hcomp] at h
      dsimp only at h
      injection h with h
      subst h
      simp at hpj
    | ok j' =>
      rw [hcomp] at h
      dsimp only at h
      by_cases hcr : input.createOk = true
      · rw [if_pos hcr] at h
        by_cases hwr : input.writeOk = true
        · rw [if_pos hwr] at h
          injection h with h
          subst h
          simp only [List.mem_cons, List.not_mem_nil, or_false] at hpj
          rcases hpj with hpj | hpj
          · exact FsEffect.noConfusion hpj
          · injection hpj with h1 h2
            subst h1
            subst h2
            exact ⟨rfl, rfl, rfl⟩
        · rw [if_neg hwr] at h
          injection h with h
          subst h
          simp at hpj
      · rw [if_neg hcr] at h
        injection h with h
        subst h
        simp at hpj

/-- C10: the output path of a processed input depends only on the output
directory and the input's basename, so two inputs with equal basenames write
to the same path; and writing over a path that already holds content simply
truncates and replaces it (the old content is gone afterwards) while the
outcome is an ordinary success — the collision/overwrite is not reported. -/
theorem claim_C10_overwrite (sampler : List ℕ → ℕ × ℕ → ℕ × ℕ → List ℕ)
    (targetDir : String) (inp1 inp2 : FileInput) (hname : inp1.name = inp2.name) :
    outputPath targetDir inp1.name = outputPath targetDir inp2.name ∧
    (∀ r1 r2 p1 j1 p2 j2,
      process sampler targetDir inp1 = some r1 →
      process sampler targetDir inp2 = some r2 →
      FsEffect.write p1 j1 ∈ r1.2 → FsEffect.write p2 j2 ∈ r2.2 → p1 = p2) ∧
    (∀ (fs : String → Option FileContent) (old : FileContent)
        (r : Outcome × List FsEffect) (j : Jpeg),
      process sampler targetDir inp1 = some r →
      FsEffect.write (outputPath targetDir inp1.name) j ∈ r.2 →
      fs (outputPath targetDir inp1.name) = some old →
      applyEffects fs r.2 (outputPath targetDir inp1.name) = some (.jpeg j) ∧
      r.1 = Outcome.success inp1.name) := by
  refine ⟨by rw [hname], ?_, ?_⟩
  · intro r1 r2 p1 j1 p2 j2 h1 h2 hm1 hm2
    obtain ⟨hp1, _, _⟩ := process_write_shape sampler targetDir inp1 r1 h1 p1 j1 hm1
    obtain ⟨hp2, _, _⟩ := process_write_shape sampler targetDir inp2 r2 h2 p2 j2 hm2
    rw [hp1, hp2, hname]
  · intro fs old r j h hm hfs
    obtain ⟨_, heffs, hout⟩ :=
      process_write_shape sampler targetDir inp1 r h _ j hm
    refine ⟨?_, hout⟩
    rw [heffs]
    simp [applyEffects, applyEffect]

theorem claim_C10_witness :
    (⟨"x.jpg", .ok ⟨1, 1, [1, 2, 3], []⟩, true, true, "io"⟩ : FileInput).name =
      (⟨"x.jpg", .err "corrupt", true, true, "io"⟩ : FileInput).name ∧
    (outputPath "out/" (⟨"x.jpg", .ok ⟨1, 1, [1, 2, 3], []⟩, true, true, "io"⟩
        : FileInput).name =
      outputPath "out/" (⟨"x.jpg", .err "corrupt", true, true, "io"⟩ : FileInput).name ∧
     (∀ r1 r2 p1 j1 p2 j2,
      process (fun d _ _ => d) "out/"
          ⟨"x.jpg", .ok ⟨1, 1, [1, 2, 3], []⟩, true, true, "io"⟩ = some r1 →
      process (fun d _ _ => d) "out/" ⟨"x.jpg", .err "corrupt", true, true, "io"⟩ =
          some r2 →
      FsEffect.write p1 j1 ∈ r1.2 → FsEffect.write p2 j2 ∈ r2.2 → p1 = p2) ∧
     (∀ (fs : String → Option FileContent) (old : FileContent)
        (r : Outcome × List FsEffect) (j : Jpeg),
      process (fun d _ _ => d) "out/"
          ⟨"x.jpg", .ok ⟨1, 1, [1, 2, 3], []⟩, true, true, "io"⟩ = some r →
      FsEffect.write (outputPath "out/"
          (⟨"x.jpg", .ok ⟨1, 1, [1, 2, 3], []⟩, true, true, "io"⟩ : FileInput).name) j ∈
          r.2 →
      fs (outputPath "out/"
          (⟨"x.jpg", .ok ⟨1, 1, [1, 2, 3], []⟩, true, true, "io"⟩ : FileInput).name) =
          some old →
      applyEffects fs r.2 (outputPath "out/"
          (⟨"x.jpg", .ok ⟨1, 1, [1, 2, 3], []⟩, true, true, "io"⟩ : FileInput).name) =
          some (.jpeg j) ∧
      r.1 = Outcome.success (⟨"x.jpg", .ok ⟨1, 1, [1, 2, 3], []⟩, true, true, "io"⟩
          : FileInput).name)) :=
  ⟨rfl, claim_C10_overwrite (fun d _ _ => d) "out/"
    ⟨"x.jpg", .ok ⟨1, 1, [1, 2, 3], []⟩, true, true, "io"⟩
    ⟨"x.jpg", .err "corrupt", true, true, "io"⟩ rfl⟩

end ResizeImage
